import Mathlib

/-!
Verification of the `some!` macro from `option-extra` (`src/macros.rs`).

The macro has three rules, each expanding to a `match` expression:

* `(if let $p:path = $x:expr)` expands to
  `match $x { $p(inner) => Some(inner), _ => None }`;
* `(if let $p:path {$($n:ident),+} = $x:expr)` expands to
  `match $x { $p($($n),+) => Some(($($n),+)), _ => None }`;
* `(if let $p:path {$($n:ident:),+} = $x:expr)` expands to
  `match $x { $p{$($n),+} => Some(($($n),+)), _ => None }`.

We embed the runtime meaning of the expanded expressions shallowly: an enum
value is a variant path together with positional fields (tuple variant) or
named fields (struct variant).  The expanded `match` is modelled by an
explicit pattern-matching step producing a binding environment, followed by
evaluation of the arm body `Some(($($n),+))`, where an unbound identifier is
an explicit runtime error (`Except.error`).  Rust tuple syntax with a single
component, `(e)`, is plain parenthesisation, so evaluated tuples are either a
bare value or a tuple of at least two components.
-/

set_option autoImplicit false

namespace OptionExtra

variable {α : Type}

/-- An enum value: a variant path with positional fields (tuple variant) or
with named fields (struct variant).  Field values are drawn from `α`. -/
inductive EnumVal (α : Type) where
  | tupleV (path : String) (fields : List α)
  | structV (path : String) (fields : List (String × α))

/-- The variant path of an enum value. -/
def EnumVal.path : EnumVal α → String
  | .tupleV p _ => p
  | .structV p _ => p

/-- A Rust value produced by a tuple expression `($e, …)`: one component means
plain parenthesisation (a bare value); otherwise a tuple of two or more. -/
inductive TupleVal (α : Type) where
  | one (v : α)
  | tup (v w : α) (rest : List α)

/-- Build the value of the Rust expression `($e₁, …, $eₖ)` from the evaluated
components (`k ≥ 1`): with one component it is the bare value. -/
def mkTupleVal (v : α) : List α → TupleVal α
  | [] => .one v
  | w :: rest => .tup v w rest

/-- Look up a name in a binding environment or in the named fields of a
struct variant; first binding wins. -/
def lookupEnv : List (String × α) → String → Option α
  | [], _ => none
  | (k, v) :: rest, n => if k = n then some v else lookupEnv rest n

/-- Look up every name of a list, failing if any is absent. -/
def lookupAll (env : List (String × α)) : List String → Option (List α)
  | [] => some []
  | m :: ms =>
    match lookupEnv env m, lookupAll env ms with
    | some v, some vs => some (v :: vs)
    | _, _ => none

/-- A pattern appearing in the first arm of an expanded `match`: a tuple
variant pattern `P(n₁, …, nₖ)` or a struct variant pattern with shorthand
field bindings `P{f₁, …, fₖ}`. -/
inductive Pat where
  | tupleP (path : String) (binders : List String)
  | structP (path : String) (fieldNames : List String)

/-- Match a pattern against an enum value, producing the binding environment
on success.  A tuple pattern matches a tuple variant of the same path and
arity, binding positionally; a struct pattern matches a struct variant of the
same path, binding each listed field name to the field's value. -/
def matchPat : Pat → EnumVal α → Option (List (String × α))
  | .tupleP p bs, .tupleV q vs =>
    if q = p ∧ vs.length = bs.length then some (bs.zip vs) else none
  | .tupleP _ _, .structV _ _ => none
  | .structP p ns, .structV q fs =>
    if q = p then (lookupAll fs ns).map (fun ws => ns.zip ws) else none
  | .structP _ _, .tupleV _ _ => none

/-- Evaluate the arm body `Some(($n, $ns…))` in a binding environment: each
identifier is looked up, an unbound identifier is a runtime error. -/
def evalSomeTuple (env : List (String × α)) (n : String) (ns : List String) :
    Except String (Option (TupleVal α)) :=
  match lookupEnv env n, lookupAll env ns with
  | some v, some vs => .ok (some (mkTupleVal v vs))
  | _, _ => .error "unbound identifier in arm body"

/-- Expansion of the first rule:
`match $x { $p(inner) => Some(inner), _ => None }`. -/
def someSingleExpand (p : String) (x : EnumVal α) :
    Except String (Option (TupleVal α)) :=
  match matchPat (.tupleP p ["inner"]) x with
  | some env =>
    match lookupEnv env "inner" with
    | some v => .ok (some (.one v))
    | none => .error "unbound identifier in arm body"
  | none => .ok none

/-- Expansion of the second rule:
`match $x { $p($($n),+) => Some(($($n),+)), _ => None }`. -/
def someTupleExpand (p n : String) (ns : List String) (x : EnumVal α) :
    Except String (Option (TupleVal α)) :=
  match matchPat (.tupleP p (n :: ns)) x with
  | some env => evalSomeTuple env n ns
  | none => .ok none

/-- Expansion of the third rule:
`match $x { $p{$($n),+} => Some(($($n),+)), _ => None }`. -/
def someStructExpand (p n : String) (ns : List String) (x : EnumVal α) :
    Except String (Option (TupleVal α)) :=
  match matchPat (.structP p (n :: ns)) x with
  | some env => evalSomeTuple env n ns
  | none => .ok none

/-- The shape of a `some!` invocation: `if let P = x`, `if let P {n₁, …} = x`
(one or more identifiers), or `if let P {f₁:, …} = x` (one or more
colon-suffixed identifiers). -/
inductive SomeArg where
  | single (path : String)
  | braces (path : String) (n : String) (ns : List String)
  | bracesColon (path : String) (n : String) (ns : List String)

/-- The rule set of `some!`: dispatch on the invocation shape to the matching
rule's expansion. -/
def someRules : SomeArg → EnumVal α → Except String (Option (TupleVal α))
  | .single p => someSingleExpand p
  | .braces p n ns => someTupleExpand p n ns
  | .bracesColon p n ns => someStructExpand p n ns

/-- The manual match the single form replaces, written directly from the spec:
`match x { P(v) => Some(v), _ => None }`. -/
def manualMatchSingle (p : String) (x : EnumVal α) : Option (TupleVal α) :=
  match x with
  | .tupleV q [v] => if q = p then some (.one v) else none
  | _ => none

/-- The manual match the multi-field tuple form with `k` binders replaces,
written directly from the spec: `match x { P(v₁, …, vₖ) => Some((v₁, …, vₖ)),
_ => None }`. -/
def manualMatchTuple (p : String) (k : Nat) (x : EnumVal α) :
    Option (TupleVal α) :=
  match x with
  | .tupleV q (v :: vs) =>
    if q = p ∧ (v :: vs).length = k then some (mkTupleVal v vs) else none
  | _ => none

/-- The manual match the struct form replaces, written directly from the
spec: `match x { P { n, ns… } => Some((n, ns…)), _ => None }`, each listed
name selecting the struct field of that name. -/
def manualMatchStruct (p n : String) (ns : List String) (x : EnumVal α) :
    Option (TupleVal α) :=
  match x with
  | .structV q fs =>
    if q = p then
      match lookupEnv fs n, lookupAll fs ns with
      | some v, some vs => some (mkTupleVal v vs)
      | _, _ => none
    else none
  | _ => none

/-! ### Lemmas about environment lookup -/

@[simp]
theorem lookupEnv_nil (m : String) : lookupEnv ([] : List (String × α)) m = none := rfl

@[simp]
theorem lookupEnv_cons_self (n : String) (v : α) (env : List (String × α)) :
    lookupEnv ((n, v) :: env) n = some v := by
  simp [lookupEnv]

theorem lookupEnv_cons_ne (m n : String) (v : α) (env : List (String × α))
    (h : n ≠ m) : lookupEnv ((n, v) :: env) m = lookupEnv env m := by
  simp [lookupEnv, h]

@[simp]
theorem lookupAll_nil (env : List (String × α)) : lookupAll env [] = some [] := rfl

theorem lookupAll_congr (ms : List String) (e₁ e₂ : List (String × α))
    (h : ∀ m ∈ ms, lookupEnv e₁ m = lookupEnv e₂ m) :
    lookupAll e₁ ms = lookupAll e₂ ms := by
  induction ms with
  | nil => rfl
  | cons m ms ih =>
    unfold lookupAll
    rw [h m (List.mem_cons_self m ms), ih (fun a ha => h a (List.mem_cons_of_mem _ ha))]

theorem lookupAll_cons_eq_some (env : List (String × α)) (n : String)
    (ns : List String) (ws : List α) (h : lookupAll env (n :: ns) = some ws) :
    ∃ w ws', lookupEnv env n = some w ∧ lookupAll env ns = some ws' ∧
      ws = w :: ws' := by
  unfold lookupAll at h
  cases hv : lookupEnv env n with
  | none => rw [hv] at h; simp at h
  | some w =>
    cases hws : lookupAll env ns with
    | none => rw [hv, hws] at h; simp at h
    | some ws' =>
      rw [hv, hws] at h
      simp only [Option.some.injEq] at h
      exact ⟨w, ws', rfl, rfl, h.symm⟩

theorem lookupAll_cons_eq_none (env : List (String × α)) (n : String)
    (ns : List String) (h : lookupAll env (n :: ns) = none) :
    lookupEnv env n = none ∨ lookupAll env ns = none := by
  unfold lookupAll at h
  cases hv : lookupEnv env n with
  | none => exact Or.inl rfl
  | some w =>
    cases hws : lookupAll env ns with
    | none => exact Or.inr rfl
    | some ws' => rw [hv, hws] at h; simp at h

/-- Looking every binder up in the environment obtained by zipping those same
binders against values recovers the values, provided the binders are
distinct. -/
theorem lookupAll_zip_self (ns : List String) (vs : List α)
    (hnd : ns.Nodup) (hlen : ns.length = vs.length) :
    lookupAll (ns.zip vs) ns = some vs := by
  induction ns generalizing vs with
  | nil =>
    cases vs with
    | nil => rfl
    | cons v vs => simp at hlen
  | cons n ns ih =>
    cases vs with
    | nil => simp at hlen
    | cons v vs =>
      have hnotin : n ∉ ns := (List.nodup_cons.mp hnd).1
      have hnd' : ns.Nodup := (List.nodup_cons.mp hnd).2
      have hlen' : ns.length = vs.length := by simpa using hlen
      have hzip : (n :: ns).zip (v :: vs) = (n, v) :: ns.zip vs := rfl
      rw [hzip]
      unfold lookupAll
      rw [lookupEnv_cons_self,
        lookupAll_congr ns ((n, v) :: ns.zip vs) (ns.zip vs)
          (fun m hm => lookupEnv_cons_ne m n v _ (fun he => hnotin (he ▸ hm))),
        ih vs hnd' hlen']

/-- In the environment built by zipping names against their looked-up field
values, every listed name looks up to the same value as in the fields. -/
theorem lookupEnv_zip_of_lookupAll (ns : List String) (fs : List (String × α))
    (ws : List α) (h : lookupAll fs ns = some ws) (m : String) (hm : m ∈ ns) :
    lookupEnv (ns.zip ws) m = lookupEnv fs m := by
  induction ns generalizing ws with
  | nil => cases hm
  | cons n ns ih =>
    obtain ⟨w, ws', hw, hws', rfl⟩ := lookupAll_cons_eq_some fs n ns ws h
    have hzip : (n :: ns).zip (w :: ws') = (n, w) :: ns.zip ws' := rfl
    rw [hzip]
    by_cases he : n = m
    · subst he
      rw [lookupEnv_cons_self, hw]
    · rw [lookupEnv_cons_ne m n w _ he]
      have hm' : m ∈ ns := by
        rcases List.mem_cons.mp hm with h1 | h2
        · exact absurd h1.symm he
        · exact h2
      exact ih ws' hws' hm'

/-- Looking all names up in the zipped environment agrees with looking them
up in the original fields, duplicates included. -/
theorem lookupAll_zip_of_lookupAll (ns : List String) (fs : List (String × α))
    (ws : List α) (h : lookupAll fs ns = some ws) :
    lookupAll (ns.zip ws) ns = some ws := by
  rw [lookupAll_congr ns (ns.zip ws) fs
    (fun m hm => lookupEnv_zip_of_lookupAll ns fs ws h m hm), h]

/-- A name listed among the zipped binders is bound whenever the zip is
length-balanced. -/
theorem lookupEnv_zip_isSome (ms : List String) (vs : List α) (m : String)
    (hm : m ∈ ms) (hlen : ms.length = vs.length) :
    (lookupEnv (ms.zip vs) m).isSome := by
  induction ms generalizing vs with
  | nil => cases hm
  | cons n ns ih =>
    cases vs with
    | nil => simp at hlen
    | cons v vs =>
      have hzip : (n :: ns).zip (v :: vs) = (n, v) :: ns.zip vs := rfl
      rw [hzip]
      by_cases he : n = m
      · subst he; rw [lookupEnv_cons_self]; rfl
      · rw [lookupEnv_cons_ne m n v _ he]
        have hm' : m ∈ ns := by
          rcases List.mem_cons.mp hm with h1 | h2
          · exact absurd h1.symm he
          · exact h2
        exact ih vs hm' (by simpa using hlen)

theorem lookupAll_isSome (env : List (String × α)) (ms : List String)
    (h : ∀ m ∈ ms, (lookupEnv env m).isSome) : (lookupAll env ms).isSome := by
  induction ms with
  | nil => simp
  | cons m ms ih =>
    obtain ⟨v, hv⟩ := Option.isSome_iff_exists.mp (h m (List.mem_cons_self m ms))
    obtain ⟨vs, hvs⟩ := Option.isSome_iff_exists.mp
      (ih (fun a ha => h a (List.mem_cons_of_mem _ ha)))
    unfold lookupAll
    rw [hv, hvs]
    rfl

theorem lookupAll_length (env : List (String × α)) (ms : List String)
    (ws : List α) (h : lookupAll env ms = some ws) : ws.length = ms.length := by
  induction ms generalizing ws with
  | nil =>
    simp only [lookupAll_nil, Option.some.injEq] at h
    simp [← h]
  | cons m ms ih =>
    obtain ⟨w, ws', _, hws', rfl⟩ := lookupAll_cons_eq_some env m ms ws h
    simp [ih ws' hws']

/-- Looking up every key of a key-distinct field list recovers its values in
declaration order. -/
theorem lookupAll_keys (fs : List (String × α))
    (hnd : (fs.map Prod.fst).Nodup) :
    lookupAll fs (fs.map Prod.fst) = some (fs.map Prod.snd) := by
  induction fs with
  | nil => rfl
  | cons kv fs ih =>
    obtain ⟨k, v⟩ := kv
    rw [List.map_cons] at hnd ⊢
    have hnotin : k ∉ fs.map Prod.fst := (List.nodup_cons.mp hnd).1
    have hnd' : (fs.map Prod.fst).Nodup := (List.nodup_cons.mp hnd).2
    unfold lookupAll
    rw [lookupEnv_cons_self,
      lookupAll_congr (fs.map Prod.fst) ((k, v) :: fs) fs
        (fun m hm => lookupEnv_cons_ne m k v fs (fun he => hnotin (he ▸ hm))),
      ih hnd']
    rfl

/-! ### Evaluation lemmas for the three expansions -/

/-- The single form on a matching one-field tuple variant. -/
theorem someSingleExpand_hit (p : String) (v : α) :
    someSingleExpand p (EnumVal.tupleV p [v]) = .ok (some (.one v)) := by
  simp [someSingleExpand, matchPat]

/-- The single form on a value of any other variant. -/
theorem someSingleExpand_miss (p : String) (x : EnumVal α) (hx : x.path ≠ p) :
    someSingleExpand p x = .ok none := by
  cases x with
  | tupleV q vs =>
    have hq : q ≠ p := hx
    simp [someSingleExpand, matchPat, hq]
  | structV q fs => simp [someSingleExpand, matchPat]

/-- The braces tuple form on a matching tuple variant with distinct binders
and agreeing arity: the result is the fields, positionally, as a Rust
tuple. -/
theorem someTupleExpand_hit (p n : String) (ns : List String)
    (hnd : (n :: ns).Nodup) (v : α) (vs : List α)
    (hlen : (v :: vs).length = (n :: ns).length) :
    someTupleExpand p n ns (EnumVal.tupleV p (v :: vs)) =
      .ok (some (mkTupleVal v vs)) := by
  unfold someTupleExpand
  have hmatch : matchPat (.tupleP p (n :: ns)) (EnumVal.tupleV p (v :: vs)) =
      some ((n :: ns).zip (v :: vs)) := by
    simp [matchPat, hlen]
  simp only [hmatch]
  unfold evalSomeTuple
  have hall : lookupAll ((n :: ns).zip (v :: vs)) (n :: ns) = some (v :: vs) :=
    lookupAll_zip_self (n :: ns) (v :: vs) hnd hlen.symm
  obtain ⟨w, ws', hw, hws', heq⟩ :=
    lookupAll_cons_eq_some ((n :: ns).zip (v :: vs)) n ns (v :: vs) hall
  injection heq with h1 h2
  subst h1; subst h2
  rw [hw, hws']

/-- The braces tuple form on a value of any other variant. -/
theorem someTupleExpand_miss (p n : String) (ns : List String) (x : EnumVal α)
    (hx : x.path ≠ p) : someTupleExpand p n ns x = .ok none := by
  cases x with
  | tupleV q vs =>
    have hq : q ≠ p := hx
    simp [someTupleExpand, matchPat, hq]
  | structV q fs => simp [someTupleExpand, matchPat]

/-- The struct form on a matching struct variant: each listed name selects
the field of that name, in the order the names are written. -/
theorem someStructExpand_hit (p n : String) (ns : List String)
    (fs : List (String × α)) (v : α) (ws : List α)
    (hv : lookupEnv fs n = some v) (hws : lookupAll fs ns = some ws) :
    someStructExpand p n ns (EnumVal.structV p fs) =
      .ok (some (mkTupleVal v ws)) := by
  unfold someStructExpand
  have hall : lookupAll fs (n :: ns) = some (v :: ws) := by
    unfold lookupAll
    rw [hv, hws]
  have hmatch : matchPat (.structP p (n :: ns)) (EnumVal.structV p fs) =
      some ((n :: ns).zip (v :: ws)) := by
    simp [matchPat, hall]
  simp only [hmatch]
  unfold evalSomeTuple
  have hall' := lookupAll_zip_of_lookupAll (n :: ns) fs (v :: ws) hall
  obtain ⟨w, ws', hw, hws', heq⟩ :=
    lookupAll_cons_eq_some ((n :: ns).zip (v :: ws)) n ns (v :: ws) hall'
  injection heq with h1 h2
  subst h1; subst h2
  rw [hw, hws']

/-- The struct form on a value of any other variant. -/
theorem someStructExpand_miss (p n : String) (ns : List String) (x : EnumVal α)
    (hx : x.path ≠ p) : someStructExpand p n ns x = .ok none := by
  cases x with
  | tupleV q vs => simp [someStructExpand, matchPat]
  | structV q fs =>
    have hq : q ≠ p := hx
    simp [someStructExpand, matchPat, hq]

theorem lookupAll_cons_none_left (env : List (String × α)) (n : String)
    (ns : List String) (h : lookupEnv env n = none) :
    lookupAll env (n :: ns) = none := by
  unfold lookupAll
  rw [h]

theorem lookupAll_cons_none_right (env : List (String × α)) (n : String)
    (ns : List String) (h : lookupAll env ns = none) :
    lookupAll env (n :: ns) = none := by
  unfold lookupAll
  rw [h]
  cases lookupEnv env n <;> rfl

/-! ### The claim theorems -/

/-- C1: the single-field tuple form `some!(if let P = x)` yields `Some(v)`
when `x` is `P(v)` and `None` when `x` is any other variant. -/
theorem some_single_spec (p : String) (v : α) (x : EnumVal α)
    (hx : x.path ≠ p) :
    someSingleExpand p (EnumVal.tupleV p [v]) = .ok (some (.one v)) ∧
    someSingleExpand p x = .ok none :=
  ⟨someSingleExpand_hit p v, someSingleExpand_miss p x hx⟩

theorem some_single_spec_witness :
    someSingleExpand "Int" (EnumVal.tupleV "Int" [(1 : Nat)]) =
      .ok (some (.one 1)) ∧
    someSingleExpand "Int" (EnumVal.tupleV "Other" [(2 : Nat)]) = .ok none :=
  some_single_spec "Int" 1 (EnumVal.tupleV "Other" [2]) (by decide)

/-- C2: the multi-field tuple form `some!(if let P {n1, …, nk} = x)` with
`k ≥ 2` distinct binders yields `Some((v1, …, vk))` when `x` is
`P(v1, …, vk)` and `None` when `x` is any other variant. -/
theorem some_tuple_spec (p n : String) (ns : List String)
    (hnd : (n :: ns).Nodup) (hk : ns ≠ []) (v : α) (vs : List α)
    (hlen : (v :: vs).length = (n :: ns).length) (x : EnumVal α)
    (hx : x.path ≠ p) :
    someTupleExpand p n ns (EnumVal.tupleV p (v :: vs)) =
      .ok (some (mkTupleVal v vs)) ∧
    someTupleExpand p n ns x = .ok none :=
  ⟨someTupleExpand_hit p n ns hnd v vs hlen, someTupleExpand_miss p n ns x hx⟩

theorem some_tuple_spec_witness :
    someTupleExpand "A" "n" ["b"] (EnumVal.tupleV "A" [(10 : Nat), 1]) =
      .ok (some (.tup 10 1 [])) ∧
    someTupleExpand "A" "n" ["b"] (EnumVal.tupleV "B" [(0 : Nat)]) =
      .ok none :=
  some_tuple_spec "A" "n" ["b"] (by decide) (by decide) 10 [1] (by decide)
    (EnumVal.tupleV "B" [0]) (by decide)

/-- C3: the struct form `some!(if let P {f1:, …, fk:} = x)` listing the
variant's field names yields `Some` of the tuple of those fields' values when
`x` is of variant `P` and `None` when `x` is any other variant. -/
theorem some_struct_spec (p n : String) (v : α) (fs : List (String × α))
    (hnd : (n :: fs.map Prod.fst).Nodup) (x : EnumVal α) (hx : x.path ≠ p) :
    someStructExpand p n (fs.map Prod.fst) (EnumVal.structV p ((n, v) :: fs)) =
      .ok (some (mkTupleVal v (fs.map Prod.snd))) ∧
    someStructExpand p n (fs.map Prod.fst) x = .ok none := by
  have hnotin : n ∉ fs.map Prod.fst := (List.nodup_cons.mp hnd).1
  have hnd' : (fs.map Prod.fst).Nodup := (List.nodup_cons.mp hnd).2
  have hws : lookupAll ((n, v) :: fs) (fs.map Prod.fst) =
      some (fs.map Prod.snd) := by
    rw [lookupAll_congr (fs.map Prod.fst) ((n, v) :: fs) fs
        (fun m hm => lookupEnv_cons_ne m n v fs (fun he => hnotin (he ▸ hm))),
      lookupAll_keys fs hnd']
  exact ⟨someStructExpand_hit p n (fs.map Prod.fst) ((n, v) :: fs) v
      (fs.map Prod.snd) (lookupEnv_cons_self n v fs) hws,
    someStructExpand_miss p n (fs.map Prod.fst) x hx⟩

theorem some_struct_spec_witness :
    someStructExpand "S" "id" ["nm"]
        (EnumVal.structV "S" [("id", (20 : Nat)), ("nm", 7)]) =
      .ok (some (.tup 20 7 [])) ∧
    someStructExpand "S" "id" ["nm"] (EnumVal.tupleV "Other" [(3 : Nat)]) =
      .ok none :=
  some_struct_spec "S" "id" 20 [("nm", 7)] (by decide)
    (EnumVal.tupleV "Other" [3]) (by decide)

/-! ### Equivalence of each expansion with the manual match it replaces -/

theorem singleExpand_eq_manual (p : String) (x : EnumVal α) :
    someSingleExpand p x = .ok (manualMatchSingle p x) := by
  cases x with
  | structV q fs => simp [someSingleExpand, matchPat, manualMatchSingle]
  | tupleV q vs =>
    by_cases hq : q = p
    · subst hq
      match vs with
      | [] => simp [someSingleExpand, matchPat, manualMatchSingle]
      | [v] =>
        rw [someSingleExpand_hit]
        simp [manualMatchSingle]
      | v :: w :: t => simp [someSingleExpand, matchPat, manualMatchSingle]
    · match vs with
      | [] => simp [someSingleExpand, matchPat, manualMatchSingle, hq]
      | [v] => simp [someSingleExpand, matchPat, manualMatchSingle, hq]
      | v :: w :: t => simp [someSingleExpand, matchPat, manualMatchSingle, hq]

theorem tupleExpand_eq_manual (p n : String) (ns : List String)
    (hnd : (n :: ns).Nodup) (x : EnumVal α) :
    someTupleExpand p n ns x = .ok (manualMatchTuple p (n :: ns).length x) := by
  cases x with
  | structV q fs => simp [someTupleExpand, matchPat, manualMatchTuple]
  | tupleV q vs =>
    by_cases hq : q = p
    · subst hq
      by_cases hlen : vs.length = (n :: ns).length
      · cases vs with
        | nil => simp at hlen
        | cons v vs' =>
          rw [someTupleExpand_hit q n ns hnd v vs' hlen]
          simp [manualMatchTuple, hlen]
      · cases vs with
        | nil => simp [someTupleExpand, matchPat, manualMatchTuple, hlen]
        | cons v vs' =>
          have hlen' : ¬ vs'.length = ns.length := by simpa using hlen
          simp [someTupleExpand, matchPat, manualMatchTuple, hlen']
    · cases vs with
      | nil => simp [someTupleExpand, matchPat, manualMatchTuple, hq]
      | cons v vs' => simp [someTupleExpand, matchPat, manualMatchTuple, hq]

theorem structExpand_eq_manual (p n : String) (ns : List String)
    (x : EnumVal α) :
    someStructExpand p n ns x = .ok (manualMatchStruct p n ns x) := by
  cases x with
  | tupleV q vs => simp [someStructExpand, matchPat, manualMatchStruct]
  | structV q fs =>
    by_cases hq : q = p
    · subst hq
      cases hv : lookupEnv fs n with
      | none =>
        have hall := lookupAll_cons_none_left fs n ns hv
        simp [someStructExpand, matchPat, manualMatchStruct, hall, hv]
      | some v =>
        cases hws : lookupAll fs ns with
        | none =>
          have hall := lookupAll_cons_none_right fs n ns hws
          simp [someStructExpand, matchPat, manualMatchStruct, hall, hv, hws]
        | some ws =>
          rw [someStructExpand_hit q n ns fs v ws hv hws]
          simp [manualMatchStruct, hv, hws]
    · simp [someStructExpand, matchPat, manualMatchStruct, hq]

/-- C4: for every scrutinee, the expansion of each of the three forms is
observationally equal to the manual match expression it replaces. -/
theorem some_expand_eq_manual (p n : String) (ns : List String)
    (hnd : (n :: ns).Nodup) (x : EnumVal α) :
    someSingleExpand p x = .ok (manualMatchSingle p x) ∧
    someTupleExpand p n ns x = .ok (manualMatchTuple p (n :: ns).length x) ∧
    someStructExpand p n ns x = .ok (manualMatchStruct p n ns x) :=
  ⟨singleExpand_eq_manual p x, tupleExpand_eq_manual p n ns hnd x,
    structExpand_eq_manual p n ns x⟩

theorem some_expand_eq_manual_witness :
    someSingleExpand "A" (EnumVal.tupleV "A" [(1 : Nat), 2]) =
      .ok (manualMatchSingle "A" (EnumVal.tupleV "A" [1, 2])) ∧
    someTupleExpand "A" "x" ["y"] (EnumVal.tupleV "A" [1, 2]) =
      .ok (manualMatchTuple "A" ("x" :: ["y"]).length
        (EnumVal.tupleV "A" [1, 2])) ∧
    someStructExpand "A" "x" ["y"] (EnumVal.tupleV "A" [1, 2]) =
      .ok (manualMatchStruct "A" "x" ["y"] (EnumVal.tupleV "A" [1, 2])) :=
  some_expand_eq_manual "A" "x" ["y"] (by decide) (EnumVal.tupleV "A" [1, 2])

/-! ### Totality of the expansions -/

theorem matchPat_tupleP_inv (p : String) (bs : List String) (x : EnumVal α)
    (env : List (String × α)) (h : matchPat (.tupleP p bs) x = some env) :
    ∃ vs, x = EnumVal.tupleV p vs ∧ vs.length = bs.length ∧
      env = bs.zip vs := by
  cases x with
  | structV q fs => simp [matchPat] at h
  | tupleV q vs =>
    simp only [matchPat] at h
    split at h
    next hc =>
      refine ⟨vs, ?_, hc.2, ?_⟩
      · rw [hc.1]
      · injection h with h3
        exact h3.symm
    next => cases h

theorem matchPat_structP_inv (p : String) (ns : List String) (x : EnumVal α)
    (env : List (String × α)) (h : matchPat (.structP p ns) x = some env) :
    ∃ fs ws, x = EnumVal.structV p fs ∧ lookupAll fs ns = some ws ∧
      env = ns.zip ws := by
  cases x with
  | tupleV q vs => simp [matchPat] at h
  | structV q fs =>
    simp only [matchPat] at h
    split at h
    next hc =>
      subst hc
      cases hws : lookupAll fs ns with
      | none => rw [hws] at h; simp at h
      | some ws =>
        rw [hws] at h
        simp only [Option.map_some', Option.some.injEq] at h
        exact ⟨fs, ws, rfl, hws, h.symm⟩
    next => cases h

theorem evalSomeTuple_isOk (env : List (String × α)) (n : String)
    (ns : List String) (h1 : (lookupEnv env n).isSome)
    (h2 : (lookupAll env ns).isSome) :
    ∃ r, evalSomeTuple env n ns = Except.ok r := by
  obtain ⟨v, hv⟩ := Option.isSome_iff_exists.mp h1
  obtain ⟨vs, hvs⟩ := Option.isSome_iff_exists.mp h2
  exact ⟨some (mkTupleVal v vs), by unfold evalSomeTuple; rw [hv, hvs]⟩

/-- C5: evaluating the expansion of any of the three forms never fails at
runtime: the generated match is total (the wildcard arm catches every
mismatch, yielding an absent value) and every identifier of the taken arm's
body is bound by its pattern. -/
theorem some_expand_no_runtime_error (a : SomeArg) (x : EnumVal α) :
    ∃ r, someRules a x = Except.ok r := by
  cases a with
  | single p =>
    show ∃ r, someSingleExpand p x = Except.ok r
    cases hm : matchPat (Pat.tupleP p ["inner"]) x with
    | none => exact ⟨none, by simp [someSingleExpand, hm]⟩
    | some env =>
      obtain ⟨vs, hx, hlen, henv⟩ := matchPat_tupleP_inv p ["inner"] x env hm
      have h1 : (lookupEnv env "inner").isSome := by
        rw [henv]
        exact lookupEnv_zip_isSome ["inner"] vs "inner" (by simp) hlen.symm
      obtain ⟨v, hv⟩ := Option.isSome_iff_exists.mp h1
      exact ⟨some (.one v), by simp [someSingleExpand, hm, hv]⟩
  | braces p n ns =>
    show ∃ r, someTupleExpand p n ns x = Except.ok r
    cases hm : matchPat (Pat.tupleP p (n :: ns)) x with
    | none => exact ⟨none, by simp [someTupleExpand, hm]⟩
    | some env =>
      obtain ⟨vs, hx, hlen, henv⟩ := matchPat_tupleP_inv p (n :: ns) x env hm
      have h1 : (lookupEnv env n).isSome := by
        rw [henv]
        exact lookupEnv_zip_isSome (n :: ns) vs n (by simp) hlen.symm
      have h2 : (lookupAll env ns).isSome := by
        rw [henv]
        refine lookupAll_isSome _ ns (fun m hmem => ?_)
        exact lookupEnv_zip_isSome (n :: ns) vs m
          (List.mem_cons_of_mem n hmem) hlen.symm
      obtain ⟨r, hr⟩ := evalSomeTuple_isOk env n ns h1 h2
      exact ⟨r, by simp [someTupleExpand, hm, hr]⟩
  | bracesColon p n ns =>
    show ∃ r, someStructExpand p n ns x = Except.ok r
    cases hm : matchPat (Pat.structP p (n :: ns)) x with
    | none => exact ⟨none, by simp [someStructExpand, hm]⟩
    | some env =>
      obtain ⟨fs, ws, hx, hws, henv⟩ := matchPat_structP_inv p (n :: ns) x env hm
      have hlen : ws.length = (n :: ns).length :=
        lookupAll_length fs (n :: ns) ws hws
      have h1 : (lookupEnv env n).isSome := by
        rw [henv]
        exact lookupEnv_zip_isSome (n :: ns) ws n (by simp) hlen.symm
      have h2 : (lookupAll env ns).isSome := by
        rw [henv]
        refine lookupAll_isSome _ ns (fun m hmem => ?_)
        exact lookupEnv_zip_isSome (n :: ns) ws m
          (List.mem_cons_of_mem n hmem) hlen.symm
      obtain ⟨r, hr⟩ := evalSomeTuple_isOk env n ns h1 h2
      exact ⟨r, by simp [someStructExpand, hm, hr]⟩

/-- C6: the rule set of `some!` has exactly three rules, one per invocation
shape — single-field tuple, braces tuple, braces with colon-suffixed names —
every shape is one of the three, and each dispatches to its own rule's
expansion. -/
theorem some_rules_exactly_three (p n : String) (ns : List String)
    (x : EnumVal α) :
    someRules (SomeArg.single p) x = someSingleExpand p x ∧
    someRules (SomeArg.braces p n ns) x = someTupleExpand p n ns x ∧
    someRules (SomeArg.bracesColon p n ns) x = someStructExpand p n ns x ∧
    ∀ a : SomeArg, (∃ q, a = SomeArg.single q) ∨
      (∃ q m ms, a = SomeArg.braces q m ms) ∨
      (∃ q m ms, a = SomeArg.bracesColon q m ms) := by
  refine ⟨rfl, rfl, rfl, fun a => ?_⟩
  cases a with
  | single q => exact Or.inl ⟨q, rfl⟩
  | braces q m ms => exact Or.inr (Or.inl ⟨q, m, ms, rfl⟩)
  | bracesColon q m ms => exact Or.inr (Or.inr ⟨q, m, ms, rfl⟩)

/-- C7: the value of an expansion depends only on the scrutinee value: the
embedding reads no state and performs no I/O, so equal scrutinees give equal
results. -/
theorem some_rules_deterministic (a : SomeArg) (x₁ x₂ : EnumVal α)
    (h : x₁ = x₂) : someRules a x₁ = someRules a x₂ := by
  rw [h]

theorem some_rules_deterministic_witness :
    someRules (SomeArg.single "P") (EnumVal.tupleV "P" [(1 : Nat)]) =
      someRules (SomeArg.single "P") (EnumVal.tupleV "P" [1]) :=
  some_rules_deterministic (SomeArg.single "P") (EnumVal.tupleV "P" [1])
    (EnumVal.tupleV "P" [1]) rfl

/-- C8: with exactly one binder the braces forms produce the bare field
value, not a one-element tuple; in particular the one-binder tuple braces
form agrees with the single-field form on every scrutinee. -/
theorem some_one_binder_bare (p n f : String) (v : α) (x : EnumVal α) :
    someTupleExpand p n [] x = someSingleExpand p x ∧
    someStructExpand p f [] (EnumVal.structV p [(f, v)]) =
      .ok (some (.one v)) := by
  constructor
  · cases x with
    | structV q fs => simp [someTupleExpand, someSingleExpand, matchPat]
    | tupleV q vs =>
      by_cases hq : q = p
      · subst hq
        match vs with
        | [] => simp [someTupleExpand, someSingleExpand, matchPat]
        | [w] =>
          rw [someTupleExpand_hit q n [] (by simp) w [] rfl,
            someSingleExpand_hit q w]
          rfl
        | w :: u :: t => simp [someTupleExpand, someSingleExpand, matchPat]
      · rw [someTupleExpand_miss p n [] (EnumVal.tupleV q vs) hq,
          someSingleExpand_miss p (EnumVal.tupleV q vs) hq]
  · exact someStructExpand_hit p f [] [(f, v)] v []
      (lookupEnv_cons_self f v []) rfl

theorem someTupleExpand_arity_miss (p n : String) (ns : List String)
    (vs : List α) (h : vs.length ≠ ns.length + 1) :
    someTupleExpand p n ns (EnumVal.tupleV p vs) = .ok none := by
  simp [someTupleExpand, matchPat, h]

/-- C9: the identifiers of the braces tuple form are positional binders, not
field selectors: any distinct names of matching arity yield the variant's
fields in declaration order, and renaming the binders leaves the expansion's
value unchanged on every scrutinee. -/
theorem some_tuple_positional (p n : String) (ns : List String)
    (hnd : (n :: ns).Nodup) (v : α) (vs : List α)
    (hlen : vs.length = ns.length) (m : String) (ms : List String)
    (hnd' : (m :: ms).Nodup) (hlen' : ms.length = ns.length) :
    someTupleExpand p n ns (EnumVal.tupleV p (v :: vs)) =
      .ok (some (mkTupleVal v vs)) ∧
    ∀ x : EnumVal α, someTupleExpand p n ns x = someTupleExpand p m ms x := by
  constructor
  · exact someTupleExpand_hit p n ns hnd v vs (by simp [hlen])
  · intro x
    cases x with
    | structV q fs => simp [someTupleExpand, matchPat]
    | tupleV q vs' =>
      by_cases hq : q = p
      · subst hq
        by_cases harity : vs'.length = ns.length + 1
        · cases vs' with
          | nil => simp at harity
          | cons w ws' =>
            have hl1 : (w :: ws').length = (n :: ns).length := by
              simp only [List.length_cons]
              simpa using harity
            have hl2 : (w :: ws').length = (m :: ms).length := by
              simp only [List.length_cons] at harity ⊢
              omega
            rw [someTupleExpand_hit q n ns hnd w ws' hl1,
              someTupleExpand_hit q m ms hnd' w ws' hl2]
        · have h2 : vs'.length ≠ ms.length + 1 := by rw [hlen']; exact harity
          rw [someTupleExpand_arity_miss q n ns vs' harity,
            someTupleExpand_arity_miss q m ms vs' h2]
      · rw [someTupleExpand_miss p n ns (EnumVal.tupleV q vs') hq,
          someTupleExpand_miss p m ms (EnumVal.tupleV q vs') hq]

theorem some_tuple_positional_witness :
    someTupleExpand "A" "a" ["b"] (EnumVal.tupleV "A" [(10 : Nat), 20]) =
      .ok (some (.tup 10 20 [])) ∧
    ∀ x : EnumVal Nat,
      someTupleExpand "A" "a" ["b"] x = someTupleExpand "A" "u" ["w"] x :=
  some_tuple_positional "A" "a" ["b"] (by decide) 10 [20] (by decide) "u" ["w"]
    (by decide) (by decide)

/-- C10: in the struct form the listed names select the variant's fields by
name, and the successful result tuple follows the order the names are
written in the invocation, which may differ from the variant's declaration
order. -/
theorem some_struct_written_order (p n : String) (ns : List String)
    (fs : List (String × α)) (v : α) (ws : List α)
    (hv : lookupEnv fs n = some v) (hws : lookupAll fs ns = some ws) :
    someStructExpand p n ns (EnumVal.structV p fs) =
      .ok (some (mkTupleVal v ws)) :=
  someStructExpand_hit p n ns fs v ws hv hws

theorem some_struct_written_order_witness :
    someStructExpand "S" "b" ["a"]
        (EnumVal.structV "S" [("a", (1 : Nat)), ("b", 2)]) =
      .ok (some (.tup 2 1 [])) :=
  some_struct_written_order "S" "b" ["a"] [("a", 1), ("b", 2)] 2 [1]
    (by decide) (by decide)

end OptionExtra
